import Mathlib

/-!
Verification of the m3u8 downloader library (`src/lib.rs`, `src/cache.rs`)
against its natural-language specification.

The Rust code is shallowly embedded: pure fragments become Lean functions,
filesystem state becomes an association list from file names to file data,
the download orchestrator becomes a state-passing function that also emits an
event trace, and Rust panics become `Option.none`.
-/

namespace M3U8

/-! ## Data model (from `m3u8_rs` types used by `src/lib.rs`) -/

/-- `m3u8_rs::Resolution { width, height }`. -/
structure Resolution where
  width : Nat
  height : Nat
deriving DecidableEq, Repr

/-- The derived `Ord` on `m3u8_rs::Resolution`: lexicographic on
(width, height), field order of the struct. -/
def Resolution.cmp (a b : Resolution) : Ordering :=
  match compare a.width b.width with
  | Ordering.eq => compare a.height b.height
  | o => o

/-- The fields of `m3u8_rs::VariantStream` read by `Downloader::load_m3u8`:
`uri`, `bandwidth`, `resolution`, `frame_rate` (the frame-rate branch of the
comparator is commented out in the source, so the field is never compared). -/
structure VariantStream where
  uri : String
  bandwidth : Nat
  resolution : Option Resolution
  frame_rate : Option Nat
deriving DecidableEq, Repr

/-- The comparator closure passed to `max_by` in `Downloader::load_m3u8`
(src/lib.rs lines 212-220): when both variants declare a resolution, compare
the resolutions; otherwise compare the declared bandwidths. The frame-rate
`if` in the source has an empty body (its comparison is commented out). -/
def variantCmp (a b : VariantStream) : Ordering :=
  match a.resolution, b.resolution with
  | some ra, some rb => Resolution.cmp ra rb
  | _, _ => compare a.bandwidth b.bandwidth

/-- The fold underlying Rust `Iterator::max_by`: the accumulator is kept only
when it compares strictly greater, so the last of equally-maximal elements
wins. -/
def foldMax (cmp : α → α → Ordering) (x : α) (xs : List α) : α :=
  xs.foldl (fun acc y => if cmp acc y = Ordering.gt then acc else y) x

/-- Rust `Iterator::max_by` semantics. -/
def maxBy (cmp : α → α → Ordering) : List α → Option α
  | [] => none
  | x :: xs => some (foldMax cmp x xs)

/-- Variant selection in `Downloader::load_m3u8`:
`master.variants.iter().max_by(comparator)`. -/
def selectVariant (vs : List VariantStream) : Option VariantStream :=
  maxBy variantCmp vs

/-! ## basename (src/lib.rs lines 18-24)

`Path::new(src).file_name().unwrap().to_str().unwrap()`. We model
`Path::file_name` on Unix: the last normal component of the path (empty and
`.` components are dropped); `none` when there is no such final component
(empty path, `/`, `.`, or a path whose last component is `..`), in which case
the Rust code panics on `unwrap` — the panic is modelled by `none`. -/

/-- Split a character list at every occurrence of the separator. -/
def splitOnChar (c : Char) : List Char → List (List Char)
  | [] => [[]]
  | x :: xs =>
    match splitOnChar c xs with
    | [] => [[]]
    | y :: ys => if x = c then [] :: y :: ys else (x :: y) :: ys

def basenameQ (src : String) : Option String :=
  let pieces := (splitOnChar '/' src.data).filter (fun p => !p.isEmpty && p != ['.'])
  match pieces.getLast? with
  | none => none
  | some last => if last = ['.', '.'] then none else some (String.mk last)

/-! ## URI formatting (`M3U8MediaPlaylist::format_url`, src/lib.rs 390-398)

`url::Url::join` is an external collaborator (the `url` crate); it is
abstracted as a function argument `join`. -/

/-- Rust `str::starts_with` on a string pattern: prefix match. -/
def rustStartsWith (s pre : String) : Bool :=
  pre.data.isPrefixOf s.data

/-- `M3U8MediaPlaylist::format_url`: return the candidate unchanged when it
starts with `"http"`; otherwise join it onto the base URL when one is set;
otherwise return it unchanged. -/
def format_url (join : String → String → String) (base_url : Option String) (uri : String) : String :=
  if rustStartsWith uri "http" then uri
  else
    match base_url with
    | some b => join b uri
    | none => uri

/-- Modelled from the spec: "if it is already an absolute HTTP(S) URL, use it
unchanged". An absolute HTTP(S) URL is one whose scheme is `http` or `https`,
i.e. it begins with `http://` or `https://`. -/
def isAbsoluteHttpUrl (s : String) : Bool :=
  rustStartsWith s "http://" || rustStartsWith s "https://"

/-! ## Playlist structures

The fields of `m3u8_rs::MediaSegment` touched by the code are `uri` and
`key.uri`; every other directive is carried opaquely in a `rest` field, which
the code never modifies. -/

/-- Per-segment encryption key reference (`m3u8_rs::Key`): the code reads and
rewrites only `uri`; the other attributes (method, IV, ...) are `rest`. -/
structure SegmentKey where
  uri : Option String
  rest : String
deriving DecidableEq, Repr

/-- One `m3u8_rs::MediaSegment`: the code touches `uri` and `key`; all other
directives (duration, title, byte range, ...) are carried opaquely in `rest`. -/
structure MediaSegment where
  uri : String
  key : Option SegmentKey
  rest : String
deriving DecidableEq, Repr

/-- `cache::DownloadRecord` (src/cache.rs lines 5-10). -/
structure DownloadRecord where
  target : String
  headers : List (String × String)
  m3u8_sum : String
deriving DecidableEq, Repr

/-- `M3U8MediaPlaylist` (src/lib.rs lines 356-363), with the wrapped
`MediaPlaylist` flattened to its segment list. -/
structure M3U8MediaPlaylist where
  base_url : Option String
  segments : List MediaSegment
  content_sum : String
deriving DecidableEq, Repr

/-- `M3U8MediaPlaylist::segments` (src/lib.rs 382-388): every segment URI
passed through `format_url`. -/
def segmentsUrls (join : String → String → String) (m : M3U8MediaPlaylist) : List String :=
  m.segments.map (fun s => format_url join m.base_url s.uri)

/-- `M3U8MediaPlaylist::key` (src/lib.rs 400-409): the first segment's key
URI, if any, passed through `format_url`. -/
def keyUrl (join : String → String → String) (m : M3U8MediaPlaylist) : Option String :=
  match m.segments.head? with
  | none => none
  | some sg =>
    match sg.key with
    | none => none
    | some k => k.uri.map (format_url join m.base_url)

/-! ## Filesystem model

A directory is an association list from file names to file data. `insertFile`
replaces any previous entry of the same name (the write clobbers it). A Rust
panic is modelled by `Option.none`. -/

/-- Contents of one file in the destination directory. -/
inductive FileData where
  | bytes : List Nat → FileData
  | record : DownloadRecord → FileData
  | manifest : List MediaSegment → FileData
deriving DecidableEq, Repr

/-- The destination directory: file name to file data. -/
abbrev Dir := List (String × FileData)

/-- Look a file up by name. -/
def lookupFile : Dir → String → Option FileData
  | [], _ => none
  | (n, v) :: rest, m => if n = m then some v else lookupFile rest m

/-- Remove every entry with the given name. -/
def eraseFile : Dir → String → Dir
  | [], _ => []
  | (n, v) :: rest, m => if n = m then eraseFile rest m else (n, v) :: eraseFile rest m

/-- Create/overwrite a file. -/
def insertFile (d : Dir) (n : String) (v : FileData) : Dir :=
  (n, v) :: eraseFile d n

/-- `DownloadRecord::load` (src/cache.rs 13-23): open `record.json` in the
directory and deserialize it; absence or any other content is an error. -/
def recordLoad (d : Dir) : Except String DownloadRecord :=
  match lookupFile d "record.json" with
  | none => Except.error "open record.json failed"
  | some (FileData.record r) => Except.ok r
  | some _ => Except.error "invalid record.json"

/-! ## The download orchestrator (`Downloader::download`, src/lib.rs 265-353)

The orchestrator is embedded as a state-passing function on `Dir` that also
emits an event trace. The concurrent segment batch is modelled sequentially
here (its cancellation behaviour is modelled separately below). -/

/-- Observable steps of one run. -/
inductive Event where
  | wipe : Event
  | writeRecord : DownloadRecord → Event
  | fetch : String → Event
  | writeFile : String → Event
  | writeIndex : Event
deriving DecidableEq, Repr

/-- `clean_dir` followed by `record.save` (src/lib.rs 282-292): the directory
is destroyed, recreated empty and the new record is written into it. -/
def cleanAndWrite (r : DownloadRecord) : Dir :=
  [("record.json", FileData.record r)]

/-- The cache `match` in `Downloader::download` (src/lib.rs 275-295), with the
result of `DownloadRecord::load` abstracted as an argument: `Ok(record)` whose
checksum matches leaves the directory untouched; every other case — any load
error, or a checksum mismatch — wipes the directory and writes a fresh
record. The load error is consumed here and never returned. -/
def cachePhaseCore (loadResult : Except String DownloadRecord) (fresh : DownloadRecord)
    (d0 : Dir) : Dir × List Event :=
  match loadResult with
  | Except.ok r =>
    if r.m3u8_sum = fresh.m3u8_sum then (d0, [])
    else (cleanAndWrite fresh, [Event.wipe, Event.writeRecord fresh])
  | Except.error _ => (cleanAndWrite fresh, [Event.wipe, Event.writeRecord fresh])

/-- The cache phase applied to the actual record on disk. -/
def cachePhase (d0 : Dir) (fresh : DownloadRecord) : Dir × List Event :=
  cachePhaseCore (recordLoad d0) fresh d0

/-- `Downloader::download_m3u8_part` (src/lib.rs 253-262): compute the
basename (panic — `none` — when it does not exist), succeed immediately when
a file of that name already exists, otherwise fetch the bytes and save them. -/
def download_m3u8_part (fetch : String → List Nat) (d : Dir) (uri : String) :
    Option (Dir × List Event) :=
  match basenameQ uri with
  | none => none
  | some name =>
    if (lookupFile d name).isSome then some (d, [])
    else some (insertFile d name (FileData.bytes (fetch uri)),
               [Event.fetch uri, Event.writeFile name])

/-- The serial key download step (src/lib.rs 297-300). -/
def keyStep (fetch : String → List Nat) (d : Dir) : Option String → Option (Dir × List Event)
  | some k => download_m3u8_part fetch d k
  | none => some (d, [])

/-- One segment download in the batch, threading the accumulated events. -/
def segStep (fetch : String → List Nat) (acc : Dir × List Event) (uri : String) :
    Option (Dir × List Event) :=
  match download_m3u8_part fetch acc.1 uri with
  | none => none
  | some (d, ev) => some (d, acc.2 ++ ev)

/-- The URI rewrite applied to one segment by `M3U8MediaPlaylist::write_to_file`
(src/lib.rs 418-425): key URI (when present) and segment URI are replaced by
their basenames; everything else is untouched. `none` models the `unwrap`
panic inside `basename`. -/
def rewriteSegment (s : MediaSegment) : Option MediaSegment :=
  match s.key with
  | none =>
    match basenameQ s.uri with
    | none => none
    | some b => some { s with uri := b }
  | some k =>
    match k.uri with
    | none =>
      match basenameQ s.uri with
      | none => none
      | some b => some { s with uri := b }
    | some ku =>
      match basenameQ ku with
      | none => none
      | some kb =>
        match basenameQ s.uri with
        | none => none
        | some b => some { s with uri := b, key := some { k with uri := some kb } }

/-- The rewrite applied to the whole segment list, in order. -/
def rewriteSegments : List MediaSegment → Option (List MediaSegment)
  | [] => some []
  | s :: rest =>
    match rewriteSegment s, rewriteSegments rest with
    | some s2, some rest2 => some (s2 :: rest2)
    | _, _ => none

/-- `Downloader::download` after playlist resolution (src/lib.rs 272-352):
cache phase, serial key download, segment batch (sequentialized), then the
rewritten manifest is written at the configured index name. The result is the
final directory with the trace of events in program order; `none` models a
basename panic. -/
def downloadRun (join : String → String → String) (fetch : String → List Nat)
    (target : String) (headers : List (String × String)) (index_name : String)
    (m : M3U8MediaPlaylist) (d0 : Dir) : Option (Dir × List Event) :=
  let fresh : DownloadRecord := ⟨target, headers, m.content_sum⟩
  let c := cachePhase d0 fresh
  match keyStep fetch c.1 (keyUrl join m) with
  | none => none
  | some (d2, ev2) =>
    match (segmentsUrls join m).foldlM (segStep fetch) (d2, []) with
    | none => none
    | some (d3, ev3) =>
      match rewriteSegments m.segments with
      | none => none
      | some segs =>
        some (insertFile d3 index_name (FileData.manifest segs),
              c.2 ++ ev2 ++ ev3 ++ [Event.writeIndex])

/-! ## save_bytes (src/lib.rs 34-49)

`save_bytes` creates `path + ".writing"`, writes all the bytes, syncs, then
renames onto `path`. Its execution is modelled as the list of directory
states it passes through: one state per written prefix of the payload
(abrupt termination can stop after any prefix), then the post-rename state. -/

def save_bytes_trace (fs : Dir) (path : String) (bs : List Nat) : List Dir :=
  ((List.range (bs.length + 1)).map fun k =>
    insertFile fs (path ++ ".writing") (FileData.bytes (bs.take k)))
  ++ [insertFile (eraseFile fs (path ++ ".writing")) path (FileData.bytes bs)]

/-! ## The concurrent batch (src/lib.rs 314-346)

The spawned task body and the coordinator's drain loop, embedded over the
order in which task results are observed. -/

/-- The spawned task body (src/lib.rs 321-335): a failed permit acquisition
(closed semaphore) returns `Ok(())`; with a permit, the task returns its
download result. -/
def segmentTask (permit : Except Unit Unit) (dl : Except String Unit) : Except String Unit :=
  match permit with
  | Except.error _ => Except.ok ()
  | Except.ok _ => dl

/-- The coordinator's `join_next` drain loop (src/lib.rs 339-346) over task
results in completion order. Returns the overall result, whether the
semaphore was closed, and how many task results the loop consumed before
returning: on the first error it closes the semaphore and returns at once. -/
def drainLoop : List (Except String Unit) → Except String Unit × Bool × Nat
  | [] => (Except.ok (), false, 0)
  | r :: rest =>
    match r with
    | Except.ok _ =>
      let out := drainLoop rest
      (out.1, out.2.1, out.2.2 + 1)
    | Except.error e => (Except.error e, true, 1)

/-! ## Playlist resolution (`Downloader::load_m3u8`, src/lib.rs 193-247)

The combined fetch-and-parse step is an external collaborator, abstracted as
`fp`; the checksum (`Md5` of the raw bytes) as `checksum`; URL join as
`join`. The loop is given fuel (the source loop is unbounded); the function
returns the result together with the list of URLs fetched. -/

inductive Playlist where
  | master : List VariantStream → Playlist
  | media : List MediaSegment → Playlist

def load_m3u8 (fp : String → Except String (Playlist × List Nat))
    (checksum : List Nat → String) (join : String → String → String) :
    Nat → String → Except String M3U8MediaPlaylist × List String
  | 0, _ => (Except.error "fuel exhausted", [])
  | fuel + 1, uri =>
    match fp uri with
    | Except.error e => (Except.error ("parse m3u8 error: " ++ e), [uri])
    | Except.ok (Playlist.master variants, _) =>
      match selectVariant variants with
      | some v =>
        let r := load_m3u8 fp checksum join fuel (join uri v.uri)
        (r.1, uri :: r.2)
      | none => (Except.error "parse m3u8 error: no stream", [uri])
    | Except.ok (Playlist.media segs, bs) =>
      (Except.ok ⟨some uri, segs, checksum bs⟩, [uri])

/-! ## Theorems -/

/-- Order characterization for the derived resolution comparison. -/
theorem resCmp_eq_gt (a b : Resolution) :
    Resolution.cmp a b = Ordering.gt ↔
      b.width < a.width ∨ (a.width = b.width ∧ b.height < a.height) := by
  rcases hw : compare a.width b.width with _ | _ | _ <;>
    simp only [Resolution.cmp, hw]
  · have h1 : a.width < b.width := Nat.compare_eq_lt.mp hw
    constructor
    · intro h; simp at h
    · intro h; exfalso; rcases h with h | ⟨h2, h3⟩ <;> omega
  · have h1 : a.width = b.width := Nat.compare_eq_eq.mp hw
    rw [Nat.compare_eq_gt]
    omega
  · have h1 : b.width < a.width := Nat.compare_eq_gt.mp hw
    constructor
    · intro _; exact Or.inl h1
    · intro _; trivial

/-- Negated form of the resolution comparison: not strictly greater means
lexicographically at most. -/
theorem resCmp_ne_gt (a b : Resolution) :
    Resolution.cmp a b ≠ Ordering.gt ↔
      a.width < b.width ∨ (a.width = b.width ∧ a.height ≤ b.height) := by
  rw [Ne, resCmp_eq_gt]
  omega

theorem foldMax_cons (cmp : α → α → Ordering) (x y : α) (ys : List α) :
    foldMax cmp x (y :: ys) = foldMax cmp (if cmp x y = Ordering.gt then x else y) ys := rfl

/-- The fold result is one of the candidates. -/
theorem foldMax_mem (cmp : α → α → Ordering) (xs : List α) :
    ∀ x, foldMax cmp x xs ∈ x :: xs := by
  induction xs with
  | nil => intro x; simp [foldMax]
  | cons y ys ih =>
    intro x
    rw [foldMax_cons]
    by_cases hc : cmp x y = Ordering.gt
    · rw [if_pos hc]
      rcases List.mem_cons.mp (ih x) with h | h
      · rw [h]; exact List.mem_cons_self _ _
      · exact List.mem_cons_of_mem _ (List.mem_cons_of_mem _ h)
    · rw [if_neg hc]
      rcases List.mem_cons.mp (ih y) with h | h
      · rw [h]; exact List.mem_cons_of_mem _ (List.mem_cons_self _ _)
      · exact List.mem_cons_of_mem _ (List.mem_cons_of_mem _ h)

/-- Maximality of the fold result, relative to a predicate under which the
comparator behaves like a total preorder. -/
theorem foldMax_not_gt (cmp : α → α → Ordering) (P : α → Prop)
    (hrefl : ∀ a, P a → cmp a a ≠ Ordering.gt)
    (hasym : ∀ a b, P a → P b → cmp a b = Ordering.gt → cmp b a ≠ Ordering.gt)
    (htrans : ∀ a b c, P a → P b → P c → cmp a b ≠ Ordering.gt → cmp b c ≠ Ordering.gt →
      cmp a c ≠ Ordering.gt)
    (xs : List α) :
    ∀ x, P x → (∀ u ∈ xs, P u) → ∀ u ∈ x :: xs, cmp u (foldMax cmp x xs) ≠ Ordering.gt := by
  induction xs with
  | nil =>
    intro x hx _ u hu
    rcases List.mem_cons.mp hu with h | h
    · rw [h]; simpa [foldMax] using hrefl x hx
    · simp at h
  | cons y ys ih =>
    intro x hx hall u hu
    have hy : P y := hall y (List.mem_cons_self _ _)
    have hys : ∀ w ∈ ys, P w := fun w hw => hall w (List.mem_cons_of_mem _ hw)
    rw [foldMax_cons]
    by_cases hc : cmp x y = Ordering.gt
    · rw [if_pos hc]
      have hmem := ih x hx hys
      have hPr : P (foldMax cmp x ys) := by
        rcases List.mem_cons.mp (foldMax_mem cmp ys x) with h5 | h5
        · rw [h5]; exact hx
        · exact hys _ h5
      rcases List.mem_cons.mp hu with h | h
      · rw [h]; exact hmem x (List.mem_cons_self _ _)
      · rcases List.mem_cons.mp h with h2 | h2
        · rw [h2]
          have h3 : cmp y x ≠ Ordering.gt := hasym x y hx hy hc
          have h4 : cmp x (foldMax cmp x ys) ≠ Ordering.gt := hmem x (List.mem_cons_self _ _)
          exact htrans y x _ hy hx hPr h3 h4
        · exact hmem u (List.mem_cons_of_mem _ h2)
    · rw [if_neg hc]
      have hmem := ih y hy hys
      have hPr : P (foldMax cmp y ys) := by
        rcases List.mem_cons.mp (foldMax_mem cmp ys y) with h5 | h5
        · rw [h5]; exact hy
        · exact hys _ h5
      rcases List.mem_cons.mp hu with h | h
      · rw [h]
        have h4 : cmp y (foldMax cmp y ys) ≠ Ordering.gt := hmem y (List.mem_cons_self _ _)
        exact htrans x y _ hx hy hPr hc h4
      · rcases List.mem_cons.mp h with h2 | h2
        · rw [h2]; exact hmem y (List.mem_cons_self _ _)
        · exact hmem u (List.mem_cons_of_mem _ h2)

/-- The fold result is the last of the maximal candidates: every candidate
listed after it compares strictly below it. -/
theorem foldMax_split (cmp : α → α → Ordering) (xs : List α) :
    ∀ x, ∃ l1 l2, x :: xs = l1 ++ foldMax cmp x xs :: l2 ∧
      ∀ u ∈ l2, cmp (foldMax cmp x xs) u = Ordering.gt := by
  induction xs with
  | nil => intro x; exact ⟨[], [], by simp [foldMax], by simp⟩
  | cons y ys ih =>
    intro x
    rw [foldMax_cons]
    by_cases hc : cmp x y = Ordering.gt
    · rw [if_pos hc]
      obtain ⟨l1, l2, heq, hgt⟩ := ih x
      cases l1 with
      | nil =>
        simp only [List.nil_append] at heq
        injection heq with h1 h2
        refine ⟨[], y :: ys, ?_, ?_⟩
        · simp [← h1]
        · intro u hu
          rcases List.mem_cons.mp hu with h | h
          · rw [← h1, h]; exact hc
          · exact hgt u (h2 ▸ h)
      | cons a l1t =>
        rw [List.cons_append] at heq
        injection heq with h1 h2
        refine ⟨x :: y :: l1t, l2, ?_, hgt⟩
        rw [List.cons_append, List.cons_append, ← h2]
    · rw [if_neg hc]
      obtain ⟨l1, l2, heq, hgt⟩ := ih y
      refine ⟨x :: l1, l2, ?_, hgt⟩
      rw [List.cons_append, ← heq]

theorem selectVariant_eq (vs : List VariantStream) (v : VariantStream)
    (h : selectVariant vs = some v) :
    ∃ x xs, vs = x :: xs ∧ v = foldMax variantCmp x xs := by
  cases vs with
  | nil => simp [selectVariant, maxBy] at h
  | cons x xs =>
    refine ⟨x, xs, rfl, ?_⟩
    have h2 : some (foldMax variantCmp x xs) = some v := h
    exact (Option.some.inj h2).symm

/-- C1 (amended): every variant listed after the chosen one compares
strictly below it under the source's pairwise comparator, and when every
variant declares a resolution the chosen variant's resolution is greatest in
the lexicographic (width, height) order — so among variants of equal
greatest resolution the latest-listed one is chosen, not the one with
greatest bandwidth. When not every variant declares a resolution, the
selection is just the result of the `max_by` fold: it need not pick the
variant of greatest declared bandwidth, nor even a comparator-maximal
variant (the comparator is not transitive across mixed declarations). The
selection is a deterministic function of the variant list. -/
theorem c1_variant_selection (vs : List VariantStream) (v : VariantStream)
    (hsel : selectVariant vs = some v) :
    (∃ l1 l2, vs = l1 ++ v :: l2 ∧ ∀ u ∈ l2, variantCmp v u = Ordering.gt) ∧
    ((∀ u ∈ vs, u.resolution.isSome = true) →
      ∀ u ∈ vs, ∀ ru rv, u.resolution = some ru → v.resolution = some rv →
        Resolution.cmp ru rv ≠ Ordering.gt) := by
  obtain ⟨x, xs, rfl, hv⟩ := selectVariant_eq _ v hsel
  constructor
  · obtain ⟨l1, l2, heq, hgt⟩ := foldMax_split variantCmp xs x
    exact ⟨l1, l2, hv.symm ▸ heq, hv.symm ▸ hgt⟩
  · intro hall u hu ru rv hru hrv
    have hrefl : ∀ a : VariantStream, a.resolution.isSome = true →
        variantCmp a a ≠ Ordering.gt := by
      intro a ha
      obtain ⟨ra, hra⟩ := Option.isSome_iff_exists.mp ha
      simp only [variantCmp, hra]
      rw [resCmp_ne_gt]
      omega
    have hasym : ∀ a b : VariantStream, a.resolution.isSome = true →
        b.resolution.isSome = true →
        variantCmp a b = Ordering.gt → variantCmp b a ≠ Ordering.gt := by
      intro a b ha hb
      obtain ⟨ra, hra⟩ := Option.isSome_iff_exists.mp ha
      obtain ⟨rb, hrb⟩ := Option.isSome_iff_exists.mp hb
      simp only [variantCmp, hra, hrb]
      intro h
      rw [resCmp_eq_gt] at h
      rw [resCmp_ne_gt]
      omega
    have htrans : ∀ a b c : VariantStream, a.resolution.isSome = true →
        b.resolution.isSome = true → c.resolution.isSome = true →
        variantCmp a b ≠ Ordering.gt → variantCmp b c ≠ Ordering.gt →
        variantCmp a c ≠ Ordering.gt := by
      intro a b c ha hb hc
      obtain ⟨ra, hra⟩ := Option.isSome_iff_exists.mp ha
      obtain ⟨rb, hrb⟩ := Option.isSome_iff_exists.mp hb
      obtain ⟨rc, hrc⟩ := Option.isSome_iff_exists.mp hc
      simp only [variantCmp, hra, hrb, hrc]
      intro h1 h2
      rw [resCmp_ne_gt] at h1 h2 ⊢
      omega
    have hx : x.resolution.isSome = true := hall x (List.mem_cons_self _ _)
    have hxs : ∀ w ∈ xs, w.resolution.isSome = true :=
      fun w hw => hall w (List.mem_cons_of_mem _ hw)
    have hmax := foldMax_not_gt variantCmp (fun w => w.resolution.isSome = true)
      hrefl hasym htrans xs x hx hxs u hu
    rw [← hv] at hmax
    simpa [variantCmp, hru, hrv] using hmax

/-- C1 counterexample: with two variants of equal (greatest) resolution the
selection takes the latest-listed one, bandwidth 500, not the one with
greatest bandwidth 2000; when not every variant declares a resolution the
selection can land on a variant (bandwidth 50) even though a variant of
strictly greater bandwidth (100) is listed; and in the mixed case the
selection need not even be comparator-maximal: on [1080p/1, no-res/50,
720p/100] the 720p/100 variant is selected although the 1080p/1 variant
compares strictly above it. -/
theorem c1_counterexample :
    selectVariant [⟨"u", 2000, some ⟨1920, 1080⟩, none⟩, ⟨"w", 500, some ⟨1920, 1080⟩, none⟩]
      = some ⟨"w", 500, some ⟨1920, 1080⟩, none⟩ ∧
    selectVariant [⟨"a", 100, some ⟨1280, 720⟩, none⟩, ⟨"b", 1, some ⟨1920, 1080⟩, none⟩,
        ⟨"c", 50, none, none⟩]
      = some ⟨"c", 50, none, none⟩ ∧
    selectVariant [⟨"p", 1, some ⟨1920, 1080⟩, none⟩, ⟨"q", 50, none, none⟩,
        ⟨"r", 100, some ⟨1280, 720⟩, none⟩]
      = some ⟨"r", 100, some ⟨1280, 720⟩, none⟩ ∧
    variantCmp ⟨"p", 1, some ⟨1920, 1080⟩, none⟩ ⟨"r", 100, some ⟨1280, 720⟩, none⟩
      = Ordering.gt := ⟨rfl, rfl, rfl, rfl⟩

/-- C1 witness: the amended theorem applied to a concrete two-variant list
where the second variant has the strictly greater resolution. -/
theorem c1_variant_selection_witness :
    (∃ l1 l2,
        [(⟨"a", 1000, some ⟨1280, 720⟩, none⟩ : VariantStream),
            ⟨"b", 500, some ⟨1920, 1080⟩, none⟩]
          = l1 ++ (⟨"b", 500, some ⟨1920, 1080⟩, none⟩ : VariantStream) :: l2 ∧
        ∀ u ∈ l2, variantCmp ⟨"b", 500, some ⟨1920, 1080⟩, none⟩ u = Ordering.gt) ∧
    ((∀ u ∈ [(⟨"a", 1000, some ⟨1280, 720⟩, none⟩ : VariantStream),
          ⟨"b", 500, some ⟨1920, 1080⟩, none⟩], u.resolution.isSome = true) →
      ∀ u ∈ [(⟨"a", 1000, some ⟨1280, 720⟩, none⟩ : VariantStream),
          ⟨"b", 500, some ⟨1920, 1080⟩, none⟩], ∀ ru rv, u.resolution = some ru →
        (⟨"b", 500, some ⟨1920, 1080⟩, none⟩ : VariantStream).resolution = some rv →
        Resolution.cmp ru rv ≠ Ordering.gt) :=
  c1_variant_selection _ _ rfl

/-- C2: on the master playlist with variants, in order, 720p at bandwidth
1000, 1080p at bandwidth 500, and 1080p at bandwidth 2000, the selection
returns the 1080p/2000 variant, and the resolver then fetches that variant's
URI (demonstrated with a concrete fetch-parse collaborator). -/
theorem c2_selects_1080p_2000 :
    (∀ u1 u2 u3 : String,
      selectVariant [⟨u1, 1000, some ⟨1280, 720⟩, none⟩, ⟨u2, 500, some ⟨1920, 1080⟩, none⟩,
          ⟨u3, 2000, some ⟨1920, 1080⟩, none⟩]
        = some ⟨u3, 2000, some ⟨1920, 1080⟩, none⟩) ∧
    load_m3u8
      (fun s => if s = "master"
        then Except.ok (Playlist.master
          [⟨"low", 1000, some ⟨1280, 720⟩, none⟩, ⟨"mid", 500, some ⟨1920, 1080⟩, none⟩,
            ⟨"high", 2000, some ⟨1920, 1080⟩, none⟩], [])
        else Except.ok (Playlist.media [], [42]))
      (fun _ => "S") (fun _ u => u) 2 "master"
      = (Except.ok ⟨some "high", [], "S"⟩, ["master", "high"]) :=
  ⟨fun _ _ _ => rfl, rfl⟩

/-- C3 counterexample: a candidate that merely starts with the four letters
`http` but is not an absolute HTTP(S) URL is returned unchanged instead of
being resolved against the configured base URL. -/
theorem c3_counterexample :
    format_url (fun b u => b ++ u) (some "http://host/dir/") "httpdir/seg.ts"
      = "httpdir/seg.ts" ∧
    isAbsoluteHttpUrl "httpdir/seg.ts" = false ∧
    ((fun (b u : String) => b ++ u) "http://host/dir/" "httpdir/seg.ts") ≠ "httpdir/seg.ts" :=
  ⟨rfl, by decide, by decide⟩

/-- C3 (amended): the candidate is returned unchanged exactly when it starts
with the prefix `"http"` (a superset of the absolute HTTP(S) URLs, which all
start with that prefix) or when no base URL is set; any other candidate is
resolved against the base URL. -/
theorem c3_format_url (join : String → String → String) (base : Option String) (uri : String) :
    (rustStartsWith uri "http" = true → format_url join base uri = uri) ∧
    (rustStartsWith uri "http" = false →
      ∀ b, base = some b → format_url join base uri = join b uri) ∧
    (base = none → format_url join base uri = uri) ∧
    (isAbsoluteHttpUrl uri = true → rustStartsWith uri "http" = true) := by
  refine ⟨?_, ?_, ?_, ?_⟩
  · intro h; simp [format_url, h]
  · intro h b hb; subst hb; simp [format_url, h]
  · intro h
    subst h
    by_cases h2 : rustStartsWith uri "http" <;> simp [format_url, h2]
  · intro h
    have hb : ∀ pre : String, rustStartsWith uri pre = true →
        ("http".data : List Char) <+: pre.data → rustStartsWith uri "http" = true := by
      intro pre hpre hh
      unfold rustStartsWith at hpre ⊢
      rw [List.isPrefixOf_iff_prefix] at hpre ⊢
      exact hh.trans hpre
    have h3 : rustStartsWith uri "http://" = true ∨ rustStartsWith uri "https://" = true := by
      simpa [isAbsoluteHttpUrl] using h
    rcases h3 with h2 | h2
    · exact hb "http://" h2 (by decide)
    · exact hb "https://" h2 (by decide)

/-- C3 witness: a relative candidate with a base URL set is resolved by the
join collaborator. -/
theorem c3_format_url_witness :
    format_url (fun b u => b ++ u) (some "http://host/dir/") "seg.ts" = "http://host/dir/seg.ts" :=
  (c3_format_url (fun b u => b ++ u) (some "http://host/dir/") "seg.ts").2.1 rfl
    "http://host/dir/" rfl

/-- C10: on a URI whose path has no final file-name component — `".."`, or
the bare `"/"` — the basename helper has no result (the Rust `unwrap` of
`None` panics, modelled as `none`), so the segment download and the manifest
rewrite abort with `none` (panic) instead of returning an error value. -/
theorem c10_basename_panic :
    basenameQ ".." = none ∧ basenameQ "/" = none ∧
    download_m3u8_part (fun _ => []) [("x", FileData.bytes [])] ".." = none ∧
    rewriteSegments [⟨"..", none, "r"⟩] = none ∧
    rewriteSegments [⟨"a.ts", some ⟨some "..", "kr"⟩, "r"⟩] = none :=
  ⟨rfl, rfl, rfl, rfl, rfl⟩

/-- C8: when the fetched playlist parses as a master playlist with an empty
variant list, the resolver returns an error and fetches no further URL (the
trace holds only the starting URL). -/
theorem c8_empty_master_errors (fp : String → Except String (Playlist × List Nat))
    (checksum : List Nat → String) (join : String → String → String)
    (fuel : Nat) (uri : String) (bs : List Nat)
    (h : fp uri = Except.ok (Playlist.master [], bs)) :
    load_m3u8 fp checksum join (fuel + 1) uri
      = (Except.error "parse m3u8 error: no stream", [uri]) := by
  simp [load_m3u8, h, selectVariant, maxBy]

/-- C8 witness: a concrete fetch-parse collaborator that always returns an
empty master playlist. -/
theorem c8_empty_master_errors_witness :
    load_m3u8 (fun _ => Except.ok (Playlist.master [], [])) (fun _ => "S") (fun _ u => u) 1 "m"
      = (Except.error "parse m3u8 error: no stream", ["m"]) :=
  c8_empty_master_errors _ _ _ 0 "m" [] rfl

theorem drainLoop_all_ok (rs : List (Except String Unit))
    (h : ∀ r ∈ rs, r = Except.ok ()) :
    drainLoop rs = (Except.ok (), false, rs.length) := by
  induction rs with
  | nil => rfl
  | cons r rest ih =>
    have hr := h r (List.mem_cons_self _ _)
    subst hr
    simp [drainLoop, ih (fun x hx => h x (List.mem_cons_of_mem _ hx))]

theorem drainLoop_first_error (e : String) (post : List (Except String Unit)) :
    ∀ pre, (∀ r ∈ pre, r = Except.ok ()) →
      drainLoop (pre ++ Except.error e :: post) = (Except.error e, true, pre.length + 1) := by
  intro pre
  induction pre with
  | nil => intro _; rfl
  | cons r rest ih =>
    intro h
    have hr := h r (List.mem_cons_self _ _)
    subst hr
    simp [drainLoop, ih (fun x hx => h x (List.mem_cons_of_mem _ hx))]

/-- C9 counterexample: the drain loop observes a failed task first and
returns that error after consuming only one of the two task results — the
second, still-outstanding task is not awaited before the error propagates. -/
theorem c9_counterexample :
    drainLoop [Except.error "boom", Except.ok ()] = (Except.error "boom", true, 1) ∧
    List.length [(Except.error "boom" : Except String Unit), Except.ok ()] = 2 :=
  ⟨rfl, rfl⟩

/-- C9 (amended): a task whose permit acquisition fails (closed semaphore)
returns success, a task holding a permit reports its download result; the
drain loop returns success after consuming every result when all tasks
succeed, and on the first failed result it closes the semaphore and
propagates that error immediately, consuming only the results up to and
including the failing one — the remaining outstanding tasks are not awaited. -/
theorem c9_fail_fast (rs : List (Except String Unit)) :
    (∀ dl : Except String Unit, segmentTask (Except.error ()) dl = Except.ok ()) ∧
    (∀ dl : Except String Unit, segmentTask (Except.ok ()) dl = dl) ∧
    ((∀ r ∈ rs, r = Except.ok ()) → drainLoop rs = (Except.ok (), false, rs.length)) ∧
    (∀ pre e post, rs = pre ++ Except.error e :: post → (∀ r ∈ pre, r = Except.ok ()) →
      drainLoop rs = (Except.error e, true, pre.length + 1)) := by
  refine ⟨fun _ => rfl, fun _ => rfl, drainLoop_all_ok rs, ?_⟩
  intro pre e post hrs hpre
  rw [hrs]
  exact drainLoop_first_error e post pre hpre

/-- C9 witness: one successful result followed by a failure and one more
outstanding result — the loop stops after two results with the error. -/
theorem c9_fail_fast_witness :
    segmentTask (Except.error ()) (Except.error "x") = Except.ok () ∧
    drainLoop [Except.ok (), Except.error "x", Except.ok ()] = (Except.error "x", true, 2) :=
  ⟨(c9_fail_fast []).1 _,
    (c9_fail_fast [Except.ok (), Except.error "x", Except.ok ()]).2.2.2
      [Except.ok ()] "x" [Except.ok ()] rfl (by simp)⟩

theorem lookup_erase_ne (d : Dir) (a b : String) (h : a ≠ b) :
    lookupFile (eraseFile d a) b = lookupFile d b := by
  induction d with
  | nil => rfl
  | cons p rest ih =>
    obtain ⟨pn, pv⟩ := p
    by_cases h2 : pn = a
    · subst h2
      simp [eraseFile, lookupFile, ih, h]
    · by_cases h3 : pn = b <;> simp [eraseFile, lookupFile, h2, h3, ih, Ne.symm h]

theorem lookup_erase_self (d : Dir) (a : String) :
    lookupFile (eraseFile d a) a = none := by
  induction d with
  | nil => rfl
  | cons p rest ih =>
    obtain ⟨pn, pv⟩ := p
    by_cases h2 : pn = a <;> simp [eraseFile, lookupFile, h2, ih]

theorem lookup_insert_self (d : Dir) (a : String) (v : FileData) :
    lookupFile (insertFile d a v) a = some v := by
  simp [insertFile, lookupFile]

theorem lookup_insert_ne (d : Dir) (a b : String) (v : FileData) (h : a ≠ b) :
    lookupFile (insertFile d a v) b = lookupFile d b := by
  simp [insertFile, lookupFile, h, lookup_erase_ne d a b h]

theorem writing_suffix_ne (path : String) : path ++ ".writing" ≠ path := by
  intro h
  have h2 := congrArg String.length h
  rw [String.length_append] at h2
  have h3 : String.length ".writing" = 8 := rfl
  omega

/-- C5: modelling every state `save_bytes` passes through — one per written
prefix of the payload, then the post-rename state — if nothing exists at the
final path beforehand, then every state before the rename still has nothing
at the final path, the last state holds exactly the complete payload at the
final path (and the temporary sibling is gone), and at every point the final
path holds either nothing or the complete payload. -/
theorem c5_save_bytes_atomic (fs : Dir) (path : String) (bs : List Nat)
    (h : lookupFile fs path = none) :
    (∀ d ∈ (save_bytes_trace fs path bs).dropLast, lookupFile d path = none) ∧
    (∃ dlast, (save_bytes_trace fs path bs).getLast? = some dlast ∧
      lookupFile dlast path = some (FileData.bytes bs) ∧
      lookupFile dlast (path ++ ".writing") = none) ∧
    (∀ d ∈ save_bytes_trace fs path bs,
      lookupFile d path = none ∨ lookupFile d path = some (FileData.bytes bs)) := by
  have hne := writing_suffix_ne path
  have hpre : ∀ d ∈ (List.range (bs.length + 1)).map (fun k =>
      insertFile fs (path ++ ".writing") (FileData.bytes (bs.take k))),
      lookupFile d path = none := by
    intro d hd
    obtain ⟨k, _, rfl⟩ := List.mem_map.mp hd
    rw [lookup_insert_ne _ _ _ _ hne]
    exact h
  refine ⟨?_, ?_, ?_⟩
  · rw [save_bytes_trace, List.dropLast_concat]
    exact hpre
  · refine ⟨insertFile (eraseFile fs (path ++ ".writing")) path (FileData.bytes bs), ?_, ?_, ?_⟩
    · rw [save_bytes_trace, List.getLast?_concat]
    · exact lookup_insert_self _ _ _
    · rw [lookup_insert_ne _ _ _ _ (fun h2 => hne h2.symm)]
      exact lookup_erase_self _ _
  · intro d hd
    rcases List.mem_append.mp hd with h2 | h2
    · exact Or.inl (hpre d h2)
    · rcases List.mem_singleton.mp h2 with rfl
      exact Or.inr (lookup_insert_self _ _ _)

/-- C5 witness: the atomicity theorem at a concrete empty directory, path and
two-byte payload. -/
theorem c5_save_bytes_atomic_witness :
    (∀ d ∈ (save_bytes_trace [] "a.ts" [1, 2]).dropLast, lookupFile d "a.ts" = none) ∧
    (∃ dlast, (save_bytes_trace [] "a.ts" [1, 2]).getLast? = some dlast ∧
      lookupFile dlast "a.ts" = some (FileData.bytes [1, 2]) ∧
      lookupFile dlast ("a.ts" ++ ".writing") = none) ∧
    (∀ d ∈ save_bytes_trace [] "a.ts" [1, 2],
      lookupFile d "a.ts" = none ∨ lookupFile d "a.ts" = some (FileData.bytes [1, 2])) :=
  c5_save_bytes_atomic [] "a.ts" [1, 2] rfl

theorem rewriteSegment_spec (s s' : MediaSegment) (h : rewriteSegment s = some s') :
    basenameQ s.uri = some s'.uri ∧ s'.rest = s.rest ∧
    (s.key = none → s'.key = none) ∧
    (∀ k, s.key = some k → ∃ k', s'.key = some k' ∧ k'.rest = k.rest ∧
      (k.uri = none → k'.uri = none) ∧
      (∀ ku, k.uri = some ku → ∃ kb, basenameQ ku = some kb ∧ k'.uri = some kb)) := by
  obtain ⟨su, sk, sr⟩ := s
  rcases sk with _ | ⟨kuo, kr⟩
  · rcases hb : basenameQ su with _ | b
    · simp [rewriteSegment, hb] at h
    · simp only [rewriteSegment, hb, Option.some.injEq] at h
      subst h
      refine ⟨rfl, rfl, fun _ => rfl, ?_⟩
      intro k0 hk0
      exact absurd hk0 (by simp)
  · rcases kuo with _ | ku
    · rcases hb : basenameQ su with _ | b
      · simp [rewriteSegment, hb] at h
      · simp only [rewriteSegment, hb, Option.some.injEq] at h
        subst h
        refine ⟨rfl, rfl, ?_, ?_⟩
        · intro h2; exact absurd h2 (by simp)
        · intro k0 hk0
          have hk0e : (⟨none, kr⟩ : SegmentKey) = k0 := Option.some.inj hk0
          subst hk0e
          refine ⟨⟨none, kr⟩, rfl, rfl, fun _ => rfl, ?_⟩
          intro ku2 hku2
          exact absurd hku2 (by simp)
    · rcases hkb : basenameQ ku with _ | kb
      · simp [rewriteSegment, hkb] at h
      · rcases hb : basenameQ su with _ | b
        · simp [rewriteSegment, hkb, hb] at h
        · simp only [rewriteSegment, hkb, hb, Option.some.injEq] at h
          subst h
          refine ⟨rfl, rfl, ?_, ?_⟩
          · intro h2; exact absurd h2 (by simp)
          · intro k0 hk0
            have hk0e : (⟨some ku, kr⟩ : SegmentKey) = k0 := Option.some.inj hk0
            subst hk0e
            refine ⟨⟨some kb, kr⟩, rfl, rfl, ?_, ?_⟩
            · intro h2; exact absurd h2 (by simp)
            · intro ku2 hku2
              have hku2e : ku = ku2 := Option.some.inj hku2
              subst hku2e
              exact ⟨kb, hkb, rfl⟩

theorem rewriteSegments_get (segs : List MediaSegment) :
    ∀ segs', rewriteSegments segs = some segs' →
      segs'.length = segs.length ∧
      ∀ i (hi : i < segs.length) (hi' : i < segs'.length),
        rewriteSegment (segs.get ⟨i, hi⟩) = some (segs'.get ⟨i, hi'⟩) := by
  induction segs with
  | nil =>
    intro segs' h
    have h2 : segs' = [] := by
      have : (some [] : Option (List MediaSegment)) = some segs' := h
      exact (Option.some.inj this).symm
    subst h2
    exact ⟨rfl, fun i hi _ => absurd hi (by simp)⟩
  | cons s rest ih =>
    intro segs' h
    unfold rewriteSegments at h
    rcases h1 : rewriteSegment s with _ | s2 <;> rw [h1] at h
    · cases h
    · rcases h2 : rewriteSegments rest with _ | rest2 <;> rw [h2] at h
      · cases h
      · injection h with h'
        subst h'
        obtain ⟨hlen, hget⟩ := ih rest2 h2
        refine ⟨by simp [hlen], ?_⟩
        intro i hi hi'
        cases i with
        | zero => simpa using h1
        | succ j =>
          simpa using hget j (by simpa using hi) (by simpa using hi')

/-- C7: when the rewrite succeeds, the output has the same length and order;
at every position the segment URI is replaced by its basename, the `rest`
directives are unchanged, an absent key stays absent, and a present key keeps
its other attributes while its URI (when present) is replaced by its
basename. In particular the claim's concrete playlist with segments
`seg/001.ts` and `http://cdn/seg/002.ts` and no key rewrites to `001.ts`,
`002.ts` in that order. -/
theorem c7_manifest_rewrite (segs segs' : List MediaSegment)
    (h : rewriteSegments segs = some segs') :
    segs'.length = segs.length ∧
    (∀ i (hi : i < segs.length) (hi' : i < segs'.length),
      basenameQ (segs.get ⟨i, hi⟩).uri = some (segs'.get ⟨i, hi'⟩).uri ∧
      (segs'.get ⟨i, hi'⟩).rest = (segs.get ⟨i, hi⟩).rest ∧
      ((segs.get ⟨i, hi⟩).key = none → (segs'.get ⟨i, hi'⟩).key = none) ∧
      (∀ k, (segs.get ⟨i, hi⟩).key = some k →
        ∃ k', (segs'.get ⟨i, hi'⟩).key = some k' ∧ k'.rest = k.rest ∧
          (k.uri = none → k'.uri = none) ∧
          (∀ ku, k.uri = some ku → ∃ kb, basenameQ ku = some kb ∧ k'.uri = some kb))) ∧
    rewriteSegments [⟨"seg/001.ts", none, "A"⟩, ⟨"http://cdn/seg/002.ts", none, "B"⟩]
      = some [⟨"001.ts", none, "A"⟩, ⟨"002.ts", none, "B"⟩] := by
  obtain ⟨hlen, hget⟩ := rewriteSegments_get segs segs' h
  exact ⟨hlen, fun i hi hi' => rewriteSegment_spec _ _ (hget i hi hi'), rfl⟩

/-- C4: after resolution, a record that loads successfully with a matching
checksum leaves the directory untouched (no wipe, no record rewrite); a
successful load with a differing checksum, or a load failure of any kind
(absence, corruption), wipes the directory and writes the fresh record — and
in that case, in any completing run, the wipe and the record write are the
first two events, before any fetch; the load error value never influences or
escapes the result (the phase is total in it). -/
theorem c4_cache_policy (d0 : Dir) (t idx : String) (hs : List (String × String))
    (m : M3U8MediaPlaylist) (join : String → String → String) (fetch : String → List Nat) :
    (∀ r, recordLoad d0 = Except.ok r → r.m3u8_sum = m.content_sum →
      cachePhase d0 ⟨t, hs, m.content_sum⟩ = (d0, [])) ∧
    (∀ r, recordLoad d0 = Except.ok r → r.m3u8_sum ≠ m.content_sum →
      cachePhase d0 ⟨t, hs, m.content_sum⟩
        = (cleanAndWrite ⟨t, hs, m.content_sum⟩,
           [Event.wipe, Event.writeRecord ⟨t, hs, m.content_sum⟩])) ∧
    (∀ e, recordLoad d0 = Except.error e →
      cachePhase d0 ⟨t, hs, m.content_sum⟩
        = (cleanAndWrite ⟨t, hs, m.content_sum⟩,
           [Event.wipe, Event.writeRecord ⟨t, hs, m.content_sum⟩])) ∧
    (∀ d evs, downloadRun join fetch t hs idx m d0 = some (d, evs) →
      ((∃ e, recordLoad d0 = Except.error e) ∨
        (∃ r, recordLoad d0 = Except.ok r ∧ r.m3u8_sum ≠ m.content_sum)) →
      ∃ rest, evs = Event.wipe :: Event.writeRecord ⟨t, hs, m.content_sum⟩ :: rest) := by
  refine ⟨?_, ?_, ?_, ?_⟩
  · intro r hload hsum
    simp [cachePhase, cachePhaseCore, hload, hsum]
  · intro r hload hsum
    simp [cachePhase, cachePhaseCore, hload, hsum]
  · intro e hload
    simp [cachePhase, cachePhaseCore, hload]
  · intro d evs h hdisj
    have hc : cachePhase d0 ⟨t, hs, m.content_sum⟩
        = (cleanAndWrite ⟨t, hs, m.content_sum⟩,
           [Event.wipe, Event.writeRecord ⟨t, hs, m.content_sum⟩]) := by
      rcases hdisj with ⟨e, he⟩ | ⟨r, hr, hneq⟩
      · simp [cachePhase, cachePhaseCore, he]
      · simp [cachePhase, cachePhaseCore, hr, hneq]
    simp only [downloadRun] at h
    rw [hc] at h
    rcases hk : keyStep fetch (cleanAndWrite ⟨t, hs, m.content_sum⟩) (keyUrl join m)
      with _ | ⟨d2, ev2⟩ <;> rw [hk] at h
    · cases h
    · dsimp only at h
      rcases hseg : (segmentsUrls join m).foldlM (segStep fetch) (d2, []) with _ | ⟨d3, ev3⟩ <;>
        rw [hseg] at h
      · cases h
      · dsimp only at h
        rcases hrw : rewriteSegments m.segments with _ | segs <;> rw [hrw] at h
        · cases h
        · dsimp only at h
          refine ⟨ev2 ++ ev3 ++ [Event.writeIndex], ?_⟩
          have h2 := (Option.some.inj h)
          have h3 := congrArg Prod.snd h2
          simp at h3
          simp [← h3]

/-- C4 witness: a concrete run against an empty directory (record absent):
the cache phase wipes and writes the fresh record, and the run's trace starts
with exactly those two events. -/
theorem c4_cache_policy_witness :
    cachePhase [] (⟨"T", [], "S"⟩ : DownloadRecord)
        = (cleanAndWrite ⟨"T", [], "S"⟩,
           [Event.wipe, Event.writeRecord ⟨"T", [], "S"⟩]) ∧
    (∃ rest,
      [Event.wipe, Event.writeRecord (⟨"T", [], "S"⟩ : DownloadRecord), Event.fetch "a.ts",
          Event.writeFile "a.ts", Event.writeIndex]
        = Event.wipe :: Event.writeRecord ⟨"T", [], "S"⟩ :: rest) :=
  ⟨(c4_cache_policy [] "T" "index.m3u8" [] ⟨none, [⟨"a.ts", none, "r"⟩], "S"⟩
      (fun _ u => u) (fun _ => [7])).2.2.1 "open record.json failed" rfl,
   (c4_cache_policy [] "T" "index.m3u8" [] ⟨none, [⟨"a.ts", none, "r"⟩], "S"⟩
      (fun _ u => u) (fun _ => [7])).2.2.2
     [("index.m3u8", FileData.manifest [⟨"a.ts", none, "r"⟩]), ("a.ts", FileData.bytes [7]),
       ("record.json", FileData.record ⟨"T", [], "S"⟩)]
     [Event.wipe, Event.writeRecord ⟨"T", [], "S"⟩, Event.fetch "a.ts",
       Event.writeFile "a.ts", Event.writeIndex]
     rfl (Or.inl ⟨"open record.json failed", rfl⟩)⟩

theorem erase_idem (d : Dir) (n : String) : eraseFile (eraseFile d n) n = eraseFile d n := by
  induction d with
  | nil => rfl
  | cons p rest ih =>
    obtain ⟨pn, pv⟩ := p
    by_cases h : pn = n <;> simp [eraseFile, h, ih]

theorem erase_insert (d : Dir) (n : String) (v : FileData) :
    eraseFile (insertFile d n v) n = eraseFile d n := by
  simp [insertFile, eraseFile, erase_idem]

theorem insert_idem (d : Dir) (n : String) (v : FileData) :
    insertFile (insertFile d n v) n v = insertFile d n v := by
  simp [insertFile, eraseFile, erase_idem]

theorem insert_preserves_presence (d : Dir) (n x : String) (v : FileData)
    (h : (lookupFile d x).isSome = true) :
    (lookupFile (insertFile d n v) x).isSome = true := by
  by_cases h2 : n = x
  · subst h2; rw [lookup_insert_self]; rfl
  · rw [lookup_insert_ne d n x v h2]; exact h

theorem part_preserves_content (fetch : String → List Nat) (d d' : Dir) (uri : String)
    (ev : List Event) (x : String) (v : FileData)
    (h : download_m3u8_part fetch d uri = some (d', ev))
    (hx : lookupFile d x = some v) : lookupFile d' x = some v := by
  unfold download_m3u8_part at h
  rcases hb : basenameQ uri with _ | n <;> rw [hb] at h
  · cases h
  · dsimp only at h
    by_cases hp : (lookupFile d n).isSome = true
    · rw [if_pos hp] at h
      injection h with h2
      have hd := congrArg Prod.fst h2
      dsimp only at hd
      rw [← hd]
      exact hx
    · rw [if_neg hp] at h
      injection h with h2
      have hd := congrArg Prod.fst h2
      dsimp only at hd
      have hnx : n ≠ x := by
        intro he
        subst he
        exact hp (by rw [hx]; rfl)
      rw [← hd, lookup_insert_ne d n x _ hnx]
      exact hx

theorem part_establishes (fetch : String → List Nat) (d d' : Dir) (uri : String)
    (ev : List Event) (h : download_m3u8_part fetch d uri = some (d', ev)) :
    ∃ n, basenameQ uri = some n ∧ (lookupFile d' n).isSome = true := by
  unfold download_m3u8_part at h
  rcases hb : basenameQ uri with _ | n <;> rw [hb] at h
  · cases h
  · dsimp only at h
    refine ⟨n, rfl, ?_⟩
    by_cases hp : (lookupFile d n).isSome = true
    · rw [if_pos hp] at h
      injection h with h2
      have hd := congrArg Prod.fst h2
      dsimp only at hd
      rw [← hd]
      exact hp
    · rw [if_neg hp] at h
      injection h with h2
      have hd := congrArg Prod.fst h2
      dsimp only at hd
      rw [← hd, lookup_insert_self]
      rfl

theorem fold_preserves_content (fetch : String → List Nat) (x : String) (v : FileData) :
    ∀ (urls : List String) (acc : Dir × List Event) (d' : Dir) (ev' : List Event),
      urls.foldlM (segStep fetch) acc = some (d', ev') →
      lookupFile acc.1 x = some v → lookupFile d' x = some v := by
  intro urls
  induction urls with
  | nil =>
    intro acc d' ev' h hx
    simp only [List.foldlM_nil, pure, Option.some.injEq] at h
    rw [h] at hx
    exact hx
  | cons u us ih =>
    intro acc d' ev' h hx
    rw [List.foldlM_cons] at h
    rcases hstep : segStep fetch acc u with _ | acc2 <;> rw [hstep] at h
    · simp at h
    · have h2 : us.foldlM (segStep fetch) acc2 = some (d', ev') := h
      unfold segStep at hstep
      rcases hd : download_m3u8_part fetch acc.1 u with _ | ⟨dd, ev⟩ <;> rw [hd] at hstep
      · cases hstep
      · injection hstep with hstep2
        have hcont := part_preserves_content fetch acc.1 dd u ev x v hd hx
        apply ih acc2 d' ev' h2
        rw [← hstep2]
        exact hcont

theorem fold_preserves_presence (fetch : String → List Nat) (x : String)
    (urls : List String) (acc : Dir × List Event) (d' : Dir) (ev' : List Event)
    (h : urls.foldlM (segStep fetch) acc = some (d', ev'))
    (hx : (lookupFile acc.1 x).isSome = true) : (lookupFile d' x).isSome = true := by
  obtain ⟨v, hv⟩ := Option.isSome_iff_exists.mp hx
  rw [fold_preserves_content fetch x v urls acc d' ev' h hv]
  rfl

theorem fold_establishes (fetch : String → List Nat) :
    ∀ (urls : List String) (acc : Dir × List Event) (d' : Dir) (ev' : List Event),
      urls.foldlM (segStep fetch) acc = some (d', ev') →
      ∀ u ∈ urls, ∃ n, basenameQ u = some n ∧ (lookupFile d' n).isSome = true := by
  intro urls
  induction urls with
  | nil => intro acc d' ev' _ u hu; simp at hu
  | cons u0 us ih =>
    intro acc d' ev' h u hu
    rw [List.foldlM_cons] at h
    rcases hstep : segStep fetch acc u0 with _ | acc2 <;> rw [hstep] at h
    · simp at h
    · have h2 : us.foldlM (segStep fetch) acc2 = some (d', ev') := h
      rcases List.mem_cons.mp hu with rfl | hmem
      · unfold segStep at hstep
        rcases hd : download_m3u8_part fetch acc.1 u with _ | ⟨dd, ev⟩ <;> rw [hd] at hstep
        · cases hstep
        · injection hstep with hstep2
          obtain ⟨n, hn, hpres⟩ := part_establishes fetch acc.1 dd u ev hd
          refine ⟨n, hn, ?_⟩
          apply fold_preserves_presence fetch n us acc2 d' ev' h2
          rw [← hstep2]
          exact hpres
      · exact ih acc2 d' ev' h2 u hmem

theorem fold_skip (fetch : String → List Nat) :
    ∀ (urls : List String) (d : Dir) (ev : List Event),
      (∀ u ∈ urls, ∃ n, basenameQ u = some n ∧ (lookupFile d n).isSome = true) →
      urls.foldlM (segStep fetch) (d, ev) = some (d, ev) := by
  intro urls
  induction urls with
  | nil => intro d ev _; rfl
  | cons u us ih =>
    intro d ev hall
    obtain ⟨n, hn, hpres⟩ := hall u (List.mem_cons_self _ _)
    rw [List.foldlM_cons]
    have hstep : segStep fetch (d, ev) u = some (d, ev) := by
      simp [segStep, download_m3u8_part, hn, hpres]
    rw [hstep]
    exact ih d ev (fun w hw => hall w (List.mem_cons_of_mem _ hw))

theorem recordLoad_ok_lookup (d : Dir) (r : DownloadRecord) (h : recordLoad d = Except.ok r) :
    lookupFile d "record.json" = some (FileData.record r) := by
  unfold recordLoad at h
  rcases hl : lookupFile d "record.json" with _ | fd <;> rw [hl] at h
  · cases h
  · cases fd with
    | bytes bs => cases h
    | record r2 => injection h with h2; rw [h2]
    | manifest segs => cases h

theorem recordLoad_of_lookup (d : Dir) (r : DownloadRecord)
    (h : lookupFile d "record.json" = some (FileData.record r)) :
    recordLoad d = Except.ok r := by
  unfold recordLoad
  rw [h]

theorem keyStep_preserves_content (fetch : String → List Nat) (d d' : Dir)
    (ko : Option String) (ev : List Event) (x : String) (v : FileData)
    (h : keyStep fetch d ko = some (d', ev))
    (hx : lookupFile d x = some v) : lookupFile d' x = some v := by
  cases ko with
  | none =>
    injection h with h2
    have hd := congrArg Prod.fst h2
    dsimp only at hd
    rw [← hd]
    exact hx
  | some k => exact part_preserves_content fetch d d' k ev x v h hx

theorem cachePhase_record (d0 : Dir) (fresh : DownloadRecord) :
    ∃ r, lookupFile (cachePhase d0 fresh).1 "record.json" = some (FileData.record r) ∧
      r.m3u8_sum = fresh.m3u8_sum := by
  unfold cachePhase
  rcases hl : recordLoad d0 with e | r
  · exact ⟨fresh, by simp [cachePhaseCore, cleanAndWrite, lookupFile], rfl⟩
  · by_cases hsum : r.m3u8_sum = fresh.m3u8_sum
    · refine ⟨r, ?_, hsum⟩
      simp only [cachePhaseCore, if_pos hsum]
      exact recordLoad_ok_lookup d0 r hl
    · exact ⟨fresh, by simp [cachePhaseCore, hsum, cleanAndWrite, lookupFile], rfl⟩

/-- C6: re-running against the directory left by a completed run of the same
target (same playlist, hence same checksum) performs zero key or segment
fetches — every per-unit download succeeds trivially by file presence, with
no content verification — and leaves the directory unchanged: the second run
returns the same directory with the sole event being the index rewrite.
The hypothesis `idx ≠ "record.json"` excludes the degenerate configuration
in which the rewritten manifest clobbers the record file. -/
theorem c6_idempotent_rerun (join : String → String → String) (fetch : String → List Nat)
    (t idx : String) (hs : List (String × String)) (m : M3U8MediaPlaylist)
    (d0 d1 : Dir) (ev1 : List Event)
    (hidx : idx ≠ "record.json")
    (h : downloadRun join fetch t hs idx m d0 = some (d1, ev1)) :
    downloadRun join fetch t hs idx m d1 = some (d1, [Event.writeIndex]) ∧
    ∀ u, Event.fetch u ∉ ([Event.writeIndex] : List Event) := by
  refine ⟨?_, fun u => by simp⟩
  simp only [downloadRun] at h
  rcases hk : keyStep fetch (cachePhase d0 ⟨t, hs, m.content_sum⟩).1 (keyUrl join m)
    with _ | ⟨d2, ev2⟩ <;> rw [hk] at h
  · cases h
  · dsimp only at h
    rcases hseg : (segmentsUrls join m).foldlM (segStep fetch) (d2, []) with _ | ⟨d3, ev3⟩ <;>
      rw [hseg] at h
    · cases h
    · dsimp only at h
      rcases hrw : rewriteSegments m.segments with _ | segs <;> rw [hrw] at h
      · cases h
      · dsimp only at h
        rw [Option.some_inj] at h
        have hd1 : insertFile d3 idx (FileData.manifest segs) = d1 := by
          have := congrArg Prod.fst h
          dsimp only at this
          exact this
        subst hd1
        obtain ⟨r, hrec, hrsum⟩ := cachePhase_record d0 ⟨t, hs, m.content_sum⟩
        have hrec2 : lookupFile d2 "record.json" = some (FileData.record r) :=
          keyStep_preserves_content fetch _ d2 _ ev2 _ _ hk hrec
        have hrec3 : lookupFile d3 "record.json" = some (FileData.record r) :=
          fold_preserves_content fetch "record.json" (FileData.record r)
            (segmentsUrls join m) (d2, []) d3 ev3 hseg hrec2
        have hload1 : recordLoad (insertFile d3 idx (FileData.manifest segs)) = Except.ok r := by
          apply recordLoad_of_lookup
          rw [lookup_insert_ne _ _ _ _ hidx]
          exact hrec3
        have hcache2 : cachePhase (insertFile d3 idx (FileData.manifest segs))
            ⟨t, hs, m.content_sum⟩ = (insertFile d3 idx (FileData.manifest segs), []) := by
          unfold cachePhase
          rw [hload1]
          simp only [cachePhaseCore, if_pos hrsum]
        have hkey2 : keyStep fetch (insertFile d3 idx (FileData.manifest segs)) (keyUrl join m)
            = some (insertFile d3 idx (FileData.manifest segs), []) := by
          cases hko : keyUrl join m with
          | none => rfl
          | some k =>
            rw [hko] at hk
            obtain ⟨n, hn, hpres2⟩ := part_establishes fetch _ d2 k ev2 hk
            have hpres3 : (lookupFile d3 n).isSome = true :=
              fold_preserves_presence fetch n (segmentsUrls join m) (d2, []) d3 ev3 hseg hpres2
            have hpres4 : (lookupFile (insertFile d3 idx (FileData.manifest segs)) n).isSome
                = true := insert_preserves_presence _ _ _ _ hpres3
            show download_m3u8_part fetch _ k = _
            unfold download_m3u8_part
            rw [hn]
            dsimp only
            rw [if_pos hpres4]
        have hall : ∀ u ∈ segmentsUrls join m, ∃ n, basenameQ u = some n ∧
            (lookupFile (insertFile d3 idx (FileData.manifest segs)) n).isSome = true := by
          intro u hu
          obtain ⟨n, hn, hpres⟩ :=
            fold_establishes fetch (segmentsUrls join m) (d2, []) d3 ev3 hseg u hu
          exact ⟨n, hn, insert_preserves_presence _ _ _ _ hpres⟩
        have hfold2 : (segmentsUrls join m).foldlM (segStep fetch)
            (insertFile d3 idx (FileData.manifest segs), [])
            = some (insertFile d3 idx (FileData.manifest segs), []) :=
          fold_skip fetch (segmentsUrls join m) _ [] hall
        simp only [downloadRun]
        rw [hcache2]
        dsimp only
        rw [hkey2]
        dsimp only
        rw [hfold2]
        dsimp only
        rw [hrw]
        dsimp only
        rw [insert_idem]
        simp

/-- C6 witness: a concrete completed first run from an empty directory; the
second run returns the same directory with only the index-rewrite event. -/
theorem c6_idempotent_rerun_witness :
    downloadRun (fun _ u => u) (fun _ => [7]) "T" [] "index.m3u8"
        ⟨none, [⟨"a.ts", none, "r"⟩], "S"⟩
        [("index.m3u8", FileData.manifest [⟨"a.ts", none, "r"⟩]), ("a.ts", FileData.bytes [7]),
          ("record.json", FileData.record ⟨"T", [], "S"⟩)]
      = some ([("index.m3u8", FileData.manifest [⟨"a.ts", none, "r"⟩]),
          ("a.ts", FileData.bytes [7]),
          ("record.json", FileData.record ⟨"T", [], "S"⟩)], [Event.writeIndex]) ∧
    ∀ u, Event.fetch u ∉ ([Event.writeIndex] : List Event) :=
  c6_idempotent_rerun (fun _ u => u) (fun _ => [7]) "T" "index.m3u8" []
    ⟨none, [⟨"a.ts", none, "r"⟩], "S"⟩ []
    [("index.m3u8", FileData.manifest [⟨"a.ts", none, "r"⟩]), ("a.ts", FileData.bytes [7]),
      ("record.json", FileData.record ⟨"T", [], "S"⟩)]
    [Event.wipe, Event.writeRecord ⟨"T", [], "S"⟩, Event.fetch "a.ts",
      Event.writeFile "a.ts", Event.writeIndex]
    (by decide) rfl

/-- C7 witness: a concrete segment with a relative URI and a keyed reference,
rewritten to basenames. -/
theorem c7_manifest_rewrite_witness :
    ([(⟨"s.ts", some ⟨some "k.bin", "KR"⟩, "R"⟩ : MediaSegment)]).length
      = ([(⟨"d/s.ts", some ⟨some "kd/k.bin", "KR"⟩, "R"⟩ : MediaSegment)]).length :=
  (c7_manifest_rewrite [⟨"d/s.ts", some ⟨some "kd/k.bin", "KR"⟩, "R"⟩]
    [⟨"s.ts", some ⟨some "k.bin", "KR"⟩, "R"⟩] rfl).1

end M3U8
